import Mathlib

/-!
Verification development for the code-topology analysis engine.

Shallow embedding of the core pipeline:
* graph builder (`buildGraph` from the scanner module): node creation with
  git-diff status, export-signature-change tracking, relative-import
  resolution, broken-edge marking;
* SQLite-backed parse and embedding caches (`ParseCache`, `EmbeddingCache`,
  `CacheDb`): rows, upserts, hash-validated lookups, schema migration;
* semantic-edge discovery (`findSemanticEdges`): brute-force pair scan,
  per-file top-K selection with dedup, similarity-descending sort;
* conflict detector (`detectConflicts`): direct/dependency/semantic
  classification and severity sort;
* embedding pipeline (`BertTokenizer.encode`, `Embedder.embed`): WordPiece
  tokenization, attention-masked mean pooling, L2 normalization.

External collaborators (git object store, tree-sitter parser, ONNX
inference) are modelled as oracle function parameters; all decision logic
of the embedded functions themselves is translated from the source.
JavaScript numbers are modelled as `ℚ` (exact) except where a square root
is required (`ℝ`); JS `Array.prototype.sort` is stable, which we model
with the stable `List.insertionSort`.
-/

attribute [local semireducible] Rat.mul Rat.add Rat.sub Rat.inv

/-- Diff status of a file relative to the base branch (protocol type `DiffStatus`). -/
inductive DiffStatus
  | UNCHANGED
  | ADDED
  | MODIFIED
  | DELETED
deriving DecidableEq

/-- Supported source language (protocol type `Language`; renamed to avoid a
Mathlib name clash). -/
inductive Lang
  | typescript
  | javascript
  | python
deriving DecidableEq

/-- Node classification produced by the path heuristics (`NodeType`). -/
inductive NodeType
  | FILE
  | COMPONENT
  | UTILITY
deriving DecidableEq

/-- One import statement extracted from a file (`ParsedImport`). Only the
fields consumed by the graph builder are modelled. -/
structure ParsedImport where
  source : String
  isRelative : Bool
deriving DecidableEq

/-- Per-file parse result (`ParsedFile`). -/
structure ParsedFile where
  filePath : String
  language : Lang
  imports : List ParsedImport
  exportSignature : String
  contentHash : String
deriving DecidableEq

/-- Result of the git diff phase (`GitDiffResult`); `fileStatus` models the
JS `Map<string, DiffStatus>` (unique keys, insertion order). -/
structure GitDiffResult where
  fileStatus : List (String × DiffStatus)
  baseBranch : Option String
  currentBranch : Option String
  hasUncommittedChanges : Bool

/-- Graph node (`TopologyNode`). -/
structure TopologyNode where
  id : String
  label : String
  type : NodeType
  status : DiffStatus
  astSignature : String
  language : Lang
deriving DecidableEq

/-- Graph edge (`TopologyEdge`). Dependency edges built by `buildGraph` carry
no `linkType` (the JS field is absent, i.e. `undefined`), modelled as
`none`; semantic edges appended by `analyzeDirectory` carry
`some "semantic"` and a similarity. -/
structure TopologyEdge where
  id : String
  source : String
  target : String
  isBroken : Bool
  linkType : Option String := none
  similarity : Option ℚ := none
deriving DecidableEq

/-- The topology graph (`TopologyGraph`). -/
structure TopologyGraph where
  nodes : List TopologyNode
  edges : List TopologyEdge
  timestamp : ℕ
deriving DecidableEq

/-- JS strings are character sequences; the string operations of the source
are modelled on `List Char` (`Char.toLower` models JS `toLowerCase` for the
ASCII range relevant to paths and code). -/
def strLower (s : String) : String :=
  String.mk (s.toList.map Char.toLower)

/-- JS `String.prototype.endsWith`. -/
def strEndsWith (s suffix : String) : Bool :=
  suffix.toList.isSuffixOf s.toList

/-- JS `String.prototype.startsWith`. -/
def strStartsWith (s pre : String) : Bool :=
  pre.toList.isPrefixOf s.toList

/-- JS `s.slice(0, -n)`: drop the last `n` characters. -/
def strDropRight (s : String) (n : ℕ) : String :=
  String.mk (s.toList.take (s.toList.length - n))

/-- Join path segments with forward slashes. -/
def joinSlash (parts : List String) : String :=
  match parts with
  | [] => ""
  | p :: rest => rest.foldl (fun acc q => acc ++ "/" ++ q) p

/-- Split a forward-slash path into segments (the paths handled by the
scanner are already normalized to forward slashes by `toForwardSlash`). -/
def splitPath (p : String) : List String :=
  (p.toList.splitOnP (fun c => c = '/')).map String.mk

/-- Node `path.basename` for normalized relative paths: the last slash
segment. -/
def basename (p : String) : String :=
  ((splitPath p).getLast?).getD p

/-- Node `path.dirname` for normalized relative paths: all but the last
segment, or `"."` when there is no directory part. -/
def dirname (p : String) : String :=
  let parts := splitPath p
  if parts.length ≤ 1 then "." else joinSlash parts.dropLast

/-- Segment normalization loop of `normalizePath`: `..` pops, `.` and empty
segments are dropped, everything else is pushed. -/
def normalizeSegs (parts : List String) : List String :=
  parts.foldl
    (fun result part =>
      if part = ".." then result.dropLast
      else if part = "." ∨ part = "" then result
      else result ++ [part])
    []

/-- `normalizePath` of the scanner: resolve `.` and `..` segments. -/
def normalizePath (p : String) : String :=
  joinSlash (normalizeSegs (splitPath p))

/-- JS `String.prototype.includes` (substring test). -/
def strContains (s sub : String) : Bool :=
  (List.range (s.toList.length + 1)).any fun i =>
    sub.toList.isPrefixOf (s.toList.drop i)

/-- `inferNodeType` of the scanner: path/extension heuristics for the node
kind. -/
def inferNodeType (filePath : String) (language : Lang) : NodeType :=
  let name := strLower (basename filePath)
  let dir := strLower (dirname filePath)
  if strEndsWith name ".tsx" ∨ strEndsWith name ".jsx" then .COMPONENT
  else if strContains dir "component" ∨ strContains dir "components" then .COMPONENT
  else if strContains dir "util" ∨ strContains dir "helper" ∨ strContains dir "lib" then .UTILITY
  else if language = .python ∧ (strStartsWith name "utils" ∨ strStartsWith name "helpers") then .UTILITY
  else if language = .python ∧ (strContains dir "views" ∨ strContains dir "controllers") then .COMPONENT
  else .FILE

/-- Extension/index fallback list probed by the JS/TS import resolver, in
priority order. -/
def jsExtensions : List String :=
  [".ts", ".tsx", ".js", ".jsx", "/index.ts", "/index.tsx", "/index.js", "/index.jsx"]

/-- JS/TS branch of `resolveImportPath`: strip an ESM `.js` suffix, join
with the importer's directory, normalize, then probe the exact path and the
extension fallbacks; first hit wins. -/
def resolveJsImport (fromFile importSource : String) (nodeIds : List String) : Option String :=
  let fromDir := dirname fromFile
  let source := if strEndsWith importSource ".js" then strDropRight importSource 3 else importSource
  let resolved := normalizePath (fromDir ++ "/" ++ source)
  if resolved ∈ nodeIds then some resolved
  else
    jsExtensions.findSome? fun ext =>
      let withExt := resolved ++ ext
      if withExt ∈ nodeIds then some withExt else none

/-- Number of leading dots of a Python relative import specifier. -/
def countLeadingDots (s : List Char) : ℕ :=
  (s.takeWhile (· = '.')).length

/-- JS `source.replace(/\./g, '/')`. -/
def dotsToSlash (s : String) : String :=
  String.mk (s.toList.map fun c => if c = '.' then '/' else c)

/-- `resolvePythonImportPath` of the scanner. -/
def resolvePyImport (fromFile importSource : String) (nodeIds : List String) : Option String :=
  let fromDir := dirname fromFile
  let dotCount := countLeadingDots importSource.toList
  if dotCount = 0 then
    let modulePath := dotsToSlash importSource
    ([modulePath ++ ".py", modulePath ++ "/__init__.py"]).find? (fun c => c ∈ nodeIds)
  else
    let relativePart := String.mk (importSource.toList.drop dotCount)
    let basePath := (List.range (dotCount - 1)).foldl (fun bp _ => dirname bp) fromDir
    let modulePath := dotsToSlash relativePart
    let resolved := if modulePath ≠ "" then normalizePath (basePath ++ "/" ++ modulePath) else basePath
    ([resolved ++ ".py", resolved ++ "/__init__.py"]).find? (fun c => c ∈ nodeIds)

/-- `resolveImportPath` of the scanner: dispatch on language. -/
def resolveImportPath (fromFile importSource : String) (nodeIds : List String)
    (language : Lang) : Option String :=
  if language = .python then resolvePyImport fromFile importSource nodeIds
  else resolveJsImport fromFile importSource nodeIds

/-- JS `Map.get` over the diff-status map with the `|| 'UNCHANGED'` default
(all status strings are truthy). -/
def lookupStatus (fileStatus : List (String × DiffStatus)) (fp : String) : DiffStatus :=
  ((((fileStatus.find? fun p => p.1 = fp).map Prod.snd)).getD .UNCHANGED)

/-- Diff status assigned to a file path in `buildGraph` (UNCHANGED when no
diff result is available). -/
def statusOf (gitDiff : Option GitDiffResult) (fp : String) : DiffStatus :=
  match gitDiff with
  | none => .UNCHANGED
  | some gd => lookupStatus gd.fileStatus fp

/-- JS truthiness of an optional string (`undefined`, `null` and `""` are
falsy). -/
def truthyStr : Option String → Bool
  | none => false
  | some s => s ≠ ""

/-- The `gitDiff?.baseBranch` optional chain. -/
def baseBranchOf (gitDiff : Option GitDiffResult) : Option String :=
  gitDiff.bind (·.baseBranch)

/-- Oracles for the external collaborators used by
`checkExportSignatureChange`: reading a file at the base-branch ref
(`getFileAtRef`; `none` models both a missing file and a git error, which
the `try`/`catch` also maps to "not changed"), and the export-signature
extractor (`parseContentForExports content filePath`). -/
structure GitOracles where
  getFileAtRef : String → Option String
  parseContentForExports : String → String → String

/-- `checkExportSignatureChange`: a file absent from the base branch (or an
empty base content, which is falsy in JS) is never "changed"; otherwise the
base signature is compared with the current one. -/
def checkExportSignatureChange (gor : GitOracles) (filePath currentSignature : String) : Bool :=
  match gor.getFileAtRef filePath with
  | none => false
  | some baseContent =>
    if baseContent = "" then false
    else decide (gor.parseContentForExports baseContent filePath ≠ currentSignature)

/-- The `changedExportFiles` set of `buildGraph`: files whose diff status is
MODIFIED, while a base branch is known, and whose export signature differs
from the base-branch version. -/
def changedExportFiles (gor : GitOracles) (gitDiff : Option GitDiffResult)
    (files : List ParsedFile) : List String :=
  files.filterMap fun f =>
    if statusOf gitDiff f.filePath = .MODIFIED ∧ truthyStr (baseBranchOf gitDiff) then
      if checkExportSignatureChange gor f.filePath f.exportSignature then some f.filePath
      else none
    else none

/-- Node constructed for one parsed file in `buildGraph`. -/
def mkNode (gitDiff : Option GitDiffResult) (f : ParsedFile) : TopologyNode :=
  { id := f.filePath
    label := basename f.filePath
    type := inferNodeType f.filePath f.language
    status := statusOf gitDiff f.filePath
    astSignature := f.exportSignature
    language := f.language }

/-- The node list of `buildGraph`, one node per parsed file in input order. -/
def buildNodes (gitDiff : Option GitDiffResult) (files : List ParsedFile) : List TopologyNode :=
  files.map (mkNode gitDiff)

/-- The (source, target) pairs of dependency edges created by `buildGraph`:
relative imports whose specifier resolves to a known node id, in the
iteration order of the nested loops. -/
def depEdgePairs (files : List ParsedFile) (nodeIds : List String) : List (String × String) :=
  files.flatMap fun f =>
    f.imports.filterMap fun imp =>
      if imp.isRelative then
        match resolveImportPath f.filePath imp.source nodeIds f.language with
        | some t => if t ∈ nodeIds then some (f.filePath, t) else none
        | none => none
      else none

/-- `buildGraph` of the scanner. Each edge id is `"e" ++ counter` with a
monotonic counter scoped to the call; `isBroken` is
`(target ∈ changedExportFiles ∧ source status = UNCHANGED) ∨ target status
= DELETED` (node statuses equal `statusOf` of the node id by
construction). `Date.now()` is passed in as `timestamp`. -/
def buildGraph (gor : GitOracles) (files : List ParsedFile)
    (gitDiff : Option GitDiffResult) (timestamp : ℕ) : TopologyGraph :=
  let nodes := buildNodes gitDiff files
  let nodeIds := nodes.map (·.id)
  let changed := changedExportFiles gor gitDiff files
  let edges := (depEdgePairs files nodeIds).enum.map fun p =>
    { id := "e" ++ toString p.1
      source := p.2.1
      target := p.2.2
      isBroken :=
        (decide (p.2.2 ∈ changed) && decide (statusOf gitDiff p.2.1 = .UNCHANGED)) ||
          decide (statusOf gitDiff p.2.2 = .DELETED) : TopologyEdge }
  { nodes := nodes, edges := edges, timestamp := timestamp }

/-- A semantic-similarity edge candidate (`SemanticEdge` of the similarity
module). Similarities are exact rationals modelling JS numbers. -/
structure SemanticEdge where
  source : String
  target : String
  similarity : ℚ
deriving DecidableEq

/-- `cosineSimilarity`: plain dot product (the vectors are pre-normalized).
The JS loop runs over `a`'s indices; all callers pass equal-length vectors,
modelled by the truncating `zipWith`. -/
def cosineSimilarity (a b : List ℚ) : ℚ :=
  (a.zipWith (· * ·) b).sum

/-- The `${a}→${b}` edge-set key used both for the existing-edge filter
and for selection dedup. -/
def pairKey (a b : String) : String :=
  a ++ "→" ++ b

/-- Key of a semantic edge (`${edge.source}→${edge.target}`). -/
def edgeKey (e : SemanticEdge) : String :=
  pairKey e.source e.target

/-- All ordered pairs `(files[i], files[j])` with `i < j`, in the scan order
of the nested loops. -/
def allPairs : List String → List (String × String)
  | [] => []
  | a :: rest => rest.map (fun b => (a, b)) ++ allPairs rest

/-- `embeddings.get(file)` over the insertion-ordered map model; the `!`
assertion in the source always succeeds because the scanned keys come from
the same map. -/
def lookupVec (embeddings : List (String × List ℚ)) (f : String) : List ℚ :=
  (((embeddings.find? fun p => p.1 = f).map Prod.snd).getD [])

/-- Candidate collection phase of `findSemanticEdges`: for every unordered
pair, skip pairs already connected by an import edge (either direction),
skip pairs below the threshold, and record the candidate. -/
def candidateEdges (embeddings : List (String × List ℚ)) (existingEdgeSet : List String)
    (threshold : ℚ) : List SemanticEdge :=
  (allPairs (embeddings.map Prod.fst)).filterMap fun ab =>
    if pairKey ab.1 ab.2 ∈ existingEdgeSet ∨ pairKey ab.2 ab.1 ∈ existingEdgeSet then none
    else
      let sim := cosineSimilarity (lookupVec embeddings ab.1) (lookupVec embeddings ab.2)
      if sim < threshold then none
      else some { source := ab.1, target := ab.2, similarity := sim }

/-- Candidate list tracked for one file in `candidatesByFile`: every
candidate incident to the file, in creation order (the source pushes each
edge to both endpoints' lists as it is created). -/
def candsFor (f : String) (cands : List SemanticEdge) : List SemanticEdge :=
  cands.filter fun e => e.source = f ∨ e.target = f

/-- First-insertion-wins key append modelling `Map.set` on a missing key. -/
def insertKey (acc : List String) (x : String) : List String :=
  if x ∈ acc then acc else acc ++ [x]

/-- Key iteration order of `candidatesByFile`: files in order of first
appearance as an endpoint of a candidate (source before target). -/
def fileKeys (cands : List SemanticEdge) : List String :=
  cands.foldl (fun acc e => insertKey (insertKey acc e.source) e.target) []

/-- The similarity-descending comparator `(a, b) => b.similarity -
a.similarity` as a total preorder; JS sort is stable, which
`List.insertionSort` models. -/
def simDesc (e₁ e₂ : SemanticEdge) : Prop :=
  e₂.similarity ≤ e₁.similarity

instance : DecidableRel simDesc :=
  fun e₁ e₂ => inferInstanceAs (Decidable (e₂.similarity ≤ e₁.similarity))

instance : IsTotal SemanticEdge simDesc :=
  ⟨fun a b => le_total b.similarity a.similarity⟩

instance : IsTrans SemanticEdge simDesc :=
  ⟨fun _ _ _ h₁ h₂ => le_trans h₂ h₁⟩

/-- A file's candidate list sorted by similarity descending (stable). -/
def sortedCands (f : String) (cands : List SemanticEdge) : List SemanticEdge :=
  (candsFor f cands).insertionSort simDesc

/-- One step of the selection loop body: push the edge unless its key was
already selected (the loop counter advances either way, so exactly the
first `maxPerFile` sorted candidates of each file are examined). -/
def selectEdge (st : List String × List SemanticEdge) (e : SemanticEdge) :
    List String × List SemanticEdge :=
  if edgeKey e ∈ st.1 then st else (st.1 ++ [edgeKey e], st.2 ++ [e])

/-- Selection pass for one file: examine the file's top-`maxPerFile` sorted
candidates. -/
def selectStep (k : ℕ) (cands : List SemanticEdge)
    (st : List String × List SemanticEdge) (f : String) :
    List String × List SemanticEdge :=
  ((sortedCands f cands).take k).foldl selectEdge st

/-- The full top-K-per-file selection over `candidatesByFile`, returning the
dedup key set and the result list. -/
def selectFold (k : ℕ) (cands : List SemanticEdge) :
    List String × List SemanticEdge :=
  (fileKeys cands).foldl (selectStep k cands) ([], [])

/-- `findSemanticEdges` of the similarity module (brute-force discovery):
candidate scan, per-file top-K selection with dedup, final
similarity-descending sort. -/
def findSemanticEdges (embeddings : List (String × List ℚ)) (existingEdgeSet : List String)
    (threshold : ℚ) (maxPerFile : ℕ) : List SemanticEdge :=
  let cands := candidateEdges embeddings existingEdgeSet threshold
  ((selectFold maxPerFile cands).2).insertionSort simDesc

/-- Row of the `parsed_files` table (`file_path` is the primary key). -/
structure ParseRow where
  filePath : String
  contentHash : String
  language : Lang
  imports : List ParsedImport
  exportSig : String
  cachedAt : ℕ
deriving DecidableEq

/-- `ParseCache.get`: `SELECT * FROM parsed_files WHERE file_path = ? AND
content_hash = ?` — a row is returned only when both the path and the
current content hash match. -/
def parseCacheGet (table : List ParseRow) (filePath currentContentHash : String) :
    Option ParseRow :=
  table.find? fun r => r.filePath = filePath ∧ r.contentHash = currentContentHash

/-- `ParseCache.set`: upsert keyed by `file_path` (`ON CONFLICT(file_path)
DO UPDATE`), overwriting hash and payload — at most one live row per path. -/
def parseCacheSet (table : List ParseRow) (row : ParseRow) : List ParseRow :=
  if table.any (fun r => r.filePath = row.filePath) then
    table.map fun r => if r.filePath = row.filePath then row else r
  else table ++ [row]

/-- Row of the `embeddings` table (`file_path` is the primary key; the
encoder model identifier is stored with the vector). -/
structure EmbeddingRow where
  filePath : String
  contentHash : String
  embedding : List ℚ
  modelId : String
  cachedAt : ℕ
deriving DecidableEq

/-- `EmbeddingCache.get`: `SELECT * FROM embeddings WHERE file_path = ? AND
content_hash = ?`, returning the stored vector. The stored `model_id` is
not part of the lookup condition. -/
def embCacheGet (table : List EmbeddingRow) (filePath contentHash : String) :
    Option (List ℚ) :=
  (table.find? fun r => r.filePath = filePath ∧ r.contentHash = contentHash).map
    (·.embedding)

/-- `EmbeddingCache.set`: upsert keyed by `file_path`. -/
def embCacheSet (table : List EmbeddingRow) (row : EmbeddingRow) : List EmbeddingRow :=
  if table.any (fun r => r.filePath = row.filePath) then
    table.map fun r => if r.filePath = row.filePath then row else r
  else table ++ [row]

/-- Abstract state of the SQLite cache database: the `schema_version` table
(`none` = table absent; `some v` = table present with row `v`, `some none`
= present but empty, read back as version `0`), presence flags for the
tables added by each migration, and the `parsed_files` rows (enough to
distinguish a preserved store from a freshly recreated empty one). -/
structure DbState where
  schemaVersionTable : Option (Option ℕ)
  hasEmbeddings : Bool
  hasAuthTables : Bool
  hasVectorSync : Bool
  parsedRows : List ParseRow
deriving DecidableEq

/-- `CURRENT_SCHEMA_VERSION` of the cache module. -/
def CURRENT_SCHEMA_VERSION : ℕ := 4

/-- Effect of executing `SCHEMA_SQL` on a database state: every table is
created if missing (existing rows survive `CREATE TABLE IF NOT EXISTS`) and
the current version marker is inserted. -/
def execSchema (db : DbState) : DbState :=
  { db with
    schemaVersionTable := some (some CURRENT_SCHEMA_VERSION)
    hasEmbeddings := true
    hasAuthTables := true
    hasVectorSync := true }

/-- The empty database freshly created by `destroyAndRecreate`: the file is
deleted and `SCHEMA_SQL` runs on an empty store. -/
def freshDb : DbState :=
  execSchema
    { schemaVersionTable := none
      hasEmbeddings := false
      hasAuthTables := false
      hasVectorSync := false
      parsedRows := [] }

/-- `CacheDb.migrate`: a fresh store (no `schema_version` table) gets the
full schema; a stored version below `CURRENT_SCHEMA_VERSION` receives the
incremental migrations in order; any read/exec error inside the `try`
(modelled by the `readOk` oracle flag) triggers `destroyAndRecreate`. Note
the `currentVersion < CURRENT_SCHEMA_VERSION` guard: a version marker
larger than the current one matches no branch and the state is returned
unchanged. -/
def migrate (readOk : Bool) (db : DbState) : DbState :=
  if ¬ readOk then freshDb
  else
    match db.schemaVersionTable with
    | none => execSchema db
    | some row =>
      let currentVersion := row.getD 0
      if currentVersion < CURRENT_SCHEMA_VERSION then
        let db₁ :=
          if currentVersion < 2 then
            { db with hasEmbeddings := true, schemaVersionTable := some (some 2) }
          else db
        let db₂ :=
          if currentVersion < 3 then
            { db₁ with hasAuthTables := true, schemaVersionTable := some (some 3) }
          else db₁
        if currentVersion < 4 then
          { db₂ with hasVectorSync := true, schemaVersionTable := some (some 4) }
        else db₂
      else db

/-- `CacheDb.open`: a failure while opening the store (modelled by the
`openOk` oracle flag) triggers `destroyAndRecreate`; otherwise the store is
migrated. -/
def openDb (openOk readOk : Bool) (db : DbState) : DbState :=
  if ¬ openOk then freshDb else migrate readOk db

/-- Cross-branch conflict warning (`ConflictWarning`). `type` is one of
`direct`/`dependency`/`semantic`, `severity` one of `high`/`medium`/`low`. -/
structure ConflictWarning where
  id : String
  type : String
  severity : String
  currentBranch : String
  otherBranch : String
  currentFile : String
  otherFile : String
  similarity : Option ℚ := none
  description : String
  timestamp : ℕ
deriving DecidableEq

/-- Another local branch together with its modified-file set (the result of
`getBranchModifiedFiles` against the base, an external git computation). -/
structure BranchInfo where
  name : String
  modifiedFiles : List String

/-- Order-independent edge lookup key of the detector:
`a < b ? a|b : b|a` (JS string comparison is lexicographic, modelled by
`String` order). -/
def conflictEdgeKey (a b : String) : String :=
  if a < b then a ++ "|" ++ b else b ++ "|" ++ a

/-- The dependency-edge key set built from the graph (edges without
`linkType === 'semantic'`). -/
def dependencyEdgeKeys (graph : TopologyGraph) : List String :=
  (graph.edges.filter fun e => e.linkType ≠ some "semantic").map fun e =>
    conflictEdgeKey e.source e.target

/-- The semantic-edge key map built from the graph (`key → similarity`,
with `?? 0` for a missing similarity); `Map.set` overwrites, so a lookup
returns the last inserted value. -/
def semanticEdgeKeys (graph : TopologyGraph) : List (String × ℚ) :=
  (graph.edges.filter fun e => e.linkType = some "semantic").map fun e =>
    (conflictEdgeKey e.source e.target, e.similarity.getD 0)

/-- JS `Number.prototype.toFixed(0)` for the non-negative similarities
handled here: round half away from zero. -/
def toFixed0 (q : ℚ) : String :=
  toString (Int.floor (q + 1/2))

/-- Severity rank used by the final sort (`high` 0, `medium` 1, `low` 2). -/
def sevRank (severity : String) : ℕ :=
  if severity = "high" then 0
  else if severity = "medium" then 1
  else if severity = "low" then 2
  else 3

/-- The severity comparator `severityOrder[a] - severityOrder[b]` as a
total preorder (the JS sort is stable). -/
def sevLe (w₁ w₂ : ConflictWarning) : Prop :=
  sevRank w₁.severity ≤ sevRank w₂.severity

instance : DecidableRel sevLe :=
  fun w₁ w₂ => inferInstanceAs (Decidable (sevRank w₁.severity ≤ sevRank w₂.severity))

instance : IsTotal ConflictWarning sevLe :=
  ⟨fun a b => Nat.le_total (sevRank a.severity) (sevRank b.severity)⟩

instance : IsTrans ConflictWarning sevLe :=
  ⟨fun _ _ _ h₁ h₂ => Nat.le_trans h₁ h₂⟩

/-- A conflict warning before its id index is attached. -/
structure PreWarning where
  type : String
  severity : String
  currentBranch : String
  otherBranch : String
  currentFile : String
  otherFile : String
  similarity : Option ℚ := none
  description : String

/-- Warning generation loops of `detectConflicts`: for every file modified
on an other branch, a direct conflict when the current branch also modifies
it (skipping the dependency/semantic checks for that pair via `continue`),
else one dependency or semantic conflict per current-branch file connected
through the edge index. -/
def conflictPreWarnings (currentBranchName : String)
    (currentModifiedFiles : List String) (otherBranches : List BranchInfo)
    (depKeys : List String) (semKeys : List (String × ℚ)) : List PreWarning :=
  otherBranches.flatMap fun ob =>
    ob.modifiedFiles.flatMap fun otherFile =>
      if otherFile ∈ currentModifiedFiles then
        [{ type := "direct", severity := "high"
           currentBranch := currentBranchName, otherBranch := ob.name
           currentFile := otherFile, otherFile := otherFile
           description := "Both branches modify \"" ++ otherFile ++ "\"" }]
      else
        currentModifiedFiles.filterMap fun currentFile =>
          let key := conflictEdgeKey currentFile otherFile
          if key ∈ depKeys then
            some { type := "dependency", severity := "medium"
                   currentBranch := currentBranchName, otherBranch := ob.name
                   currentFile := currentFile, otherFile := otherFile
                   description := "\"" ++ currentFile ++ "\" and \"" ++ otherFile ++
                     "\" have a dependency relationship" }
          else
            match ((semKeys.reverse).find? fun p => p.1 = key).map Prod.snd with
            | some similarity =>
              some { type := "semantic", severity := "low"
                     currentBranch := currentBranchName, otherBranch := ob.name
                     currentFile := currentFile, otherFile := otherFile
                     similarity := some similarity
                     description := "\"" ++ currentFile ++ "\" and \"" ++ otherFile ++
                       "\" are semantically similar (" ++ toFixed0 (similarity * 100) ++ "%)" }
            | none => none

/-- Attach the `conflict-${timestamp}-${index}` ids in creation order. -/
def attachIds (now : ℕ) (pres : List PreWarning) : List ConflictWarning :=
  pres.enum.map fun p =>
    { id := "conflict-" ++ toString now ++ "-" ++ toString p.1
      type := p.2.type, severity := p.2.severity
      currentBranch := p.2.currentBranch, otherBranch := p.2.otherBranch
      currentFile := p.2.currentFile, otherFile := p.2.otherFile
      similarity := p.2.similarity, description := p.2.description
      timestamp := now }

/-- `detectConflicts` of the conflict module. Branch resolution and the
per-branch modified-file sets are external git computations passed in as
data (`none` models an unresolvable branch); all early-exit paths return
the empty list. `Date.now()` is passed in as `now`. -/
def detectConflicts (currentBranch? base? : Option String)
    (currentModifiedFiles : List String) (otherBranches : List BranchInfo)
    (graph : TopologyGraph) (now : ℕ) : List ConflictWarning :=
  match currentBranch?, base? with
  | none, _ => []
  | some _, none => []
  | some cur, some base =>
    if cur = base then []
    else if currentModifiedFiles.isEmpty then []
    else
      let depKeys := dependencyEdgeKeys graph
      let semKeys := semanticEdgeKeys graph
      let warnings :=
        attachIds now
          (conflictPreWarnings cur currentModifiedFiles otherBranches depKeys semKeys)
      warnings.insertionSort sevLe

/-- `MAX_WORD_LEN` of the tokenizer. -/
def MAX_WORD_LEN : ℕ := 200

/-- Longest-match search of the inner WordPiece loop: try every cut point
`end` from `word.length` down to `start + 1` and return the first (longest)
substring found in the vocabulary, prefixed with `##` for non-initial
positions. Returns the token id and the new `start`. -/
def wpLongest (vocab : String → Option ℕ) (word : List Char) (start : ℕ) :
    Option (ℕ × ℕ) :=
  ((List.range' (start + 1) (word.length - start)).reverse).findSome? fun e =>
    let sub := String.mk ((word.drop start).take (e - start))
    let sub := if start = 0 then sub else "##" ++ sub
    (vocab sub).map fun id => (id, e)

/-- Outer WordPiece loop: advance `start` to the matched cut point, or past
one character with an `[UNK]` token when no substring matches. `start`
strictly increases each iteration, so `word.length` steps of fuel always
suffice; the fuel only realizes that termination argument. -/
def wpLoop (vocab : String → Option ℕ) (unkId : ℕ) (word : List Char) :
    ℕ → ℕ → List ℕ
  | _, 0 => []
  | start, fuel + 1 =>
    if start < word.length then
      match wpLongest vocab word start with
      | some ide => ide.1 :: wpLoop vocab unkId word ide.2 fuel
      | none => unkId :: wpLoop vocab unkId word (start + 1) fuel
    else []

/-- `wordPieceTokenize`: over-long words map to a single `[UNK]`. -/
def wordPieceTokenize (vocab : String → Option ℕ) (unkId : ℕ) (word : List Char) :
    List ℕ :=
  if word.length > MAX_WORD_LEN then [unkId]
  else wpLoop vocab unkId word 0 word.length

/-- Lowercasing and `replace(/[\t\n\r]/g, ' ')` of `encode`. -/
def cleanChars (text : String) : List Char :=
  (text.toList.map Char.toLower).map fun c =>
    if c = '\t' ∨ c = '\n' ∨ c = '\r' then ' ' else c

/-- Whitespace split `split(/\s+/).filter(w => w.length > 0)` (after the
cleanup above the relevant whitespace is the space character). -/
def splitWords (text : String) : List (List Char) :=
  ((cleanChars text).splitOnP (fun c => c = ' ')).filter (fun w => w.length > 0)

/-- Inner token-append loop of `encode`: push sub-tokens while the id list
is shorter than `maxLength - 1`. -/
def appendSubTokens (maxLength : ℕ) (tokenIds : List ℕ) (subs : List ℕ) : List ℕ :=
  match subs with
  | [] => tokenIds
  | s :: rest =>
    if tokenIds.length ≥ maxLength - 1 then tokenIds
    else appendSubTokens maxLength (tokenIds ++ [s]) rest

/-- Outer word loop of `encode`: stop as soon as the id list reaches
`maxLength - 1`. -/
def encodeLoop (vocab : String → Option ℕ) (unkId maxLength : ℕ)
    (tokenIds : List ℕ) (words : List (List Char)) : List ℕ :=
  match words with
  | [] => tokenIds
  | w :: rest =>
    if tokenIds.length ≥ maxLength - 1 then tokenIds
    else
      encodeLoop vocab unkId maxLength
        (appendSubTokens maxLength tokenIds (wordPieceTokenize vocab unkId w)) rest

/-- Fixed-length tokenizer output (`TokenizerOutput`); the JS bigints are
modelled as naturals. -/
structure TokenizerOutput where
  inputIds : List ℕ
  attentionMask : List ℕ
  tokenTypeIds : List ℕ
deriving DecidableEq

/-- State of a loaded `BertTokenizer`: the vocabulary lookup and the
resolved special-token ids (`vocab.get(tok) ?? fallback` at load time), and
the configured maximum sequence length (256 in the `Embedder`). -/
structure BertTokenizer where
  vocab : String → Option ℕ
  unkTokenId : ℕ
  clsTokenId : ℕ
  sepTokenId : ℕ
  padTokenId : ℕ
  maxLength : ℕ

/-- `BertTokenizer.encode`: `[CLS]`, WordPiece tokens truncated to
`maxLength - 1`, `[SEP]`, then right-padding with the pad token while the
attention mask is 1 exactly on the non-padding positions. -/
def encode (tok : BertTokenizer) (text : String) : TokenizerOutput :=
  let words := splitWords text
  let tokenIds := encodeLoop tok.vocab tok.unkTokenId tok.maxLength [tok.clsTokenId] words
  let tokenIds := tokenIds ++ [tok.sepTokenId]
  { inputIds := (List.range tok.maxLength).map fun i => tokenIds.getD i tok.padTokenId
    attentionMask := (List.range tok.maxLength).map fun i =>
      if i < tokenIds.length then 1 else 0
    tokenTypeIds := List.replicate tok.maxLength 0 }

/-- Attention-masked accumulation loop of `Embedder.embed`: for every
sequence position with a non-zero mask, add `hidden[i][j] * mask` into the
pooled sums and accumulate the mask into `maskSum`. `hidden` is the
`[seqLen, hiddenSize]` hidden state; rows are aligned with the mask. -/
def poolLoop (hidden : List (List ℝ)) (mask : List ℕ) (pooled₀ : List ℝ) :
    List ℝ × ℕ :=
  (mask.zip hidden).foldl
    (fun st mr =>
      if mr.1 = 0 then st
      else ((st.1.zipWith (fun p h => p + h * (mr.1 : ℝ)) mr.2), st.2 + mr.1))
    (pooled₀, 0)

/-- Mean-pooled vector of `Embedder.embed`: divide the masked sums by the
mask count, guarding division by zero by leaving the (zero) sums. -/
noncomputable def pooledVec (hidden : List (List ℝ)) (mask : List ℕ) (hiddenSize : ℕ) :
    List ℝ :=
  let st := poolLoop hidden mask (List.replicate hiddenSize 0)
  if st.2 > 0 then st.1.map (fun x => x / (st.2 : ℝ)) else st.1

/-- Sum of squares of a vector. -/
def sumSq (v : List ℝ) : ℝ :=
  (v.map fun x => x * x).sum

/-- L2 norm of a vector. -/
noncomputable def l2norm (v : List ℝ) : ℝ :=
  Real.sqrt (sumSq v)

/-- L2 normalization step of `Embedder.embed`: divide by the norm when it is
positive, else return the zero vector of the same width. -/
noncomputable def l2normalize (pooled : List ℝ) : List ℝ :=
  let norm := l2norm pooled
  if norm > 0 then pooled.map (fun x => x / norm)
  else List.replicate pooled.length 0

/-- Pooling and normalization tail of `Embedder.embed`, given the hidden
state produced by the (external) ONNX inference. -/
noncomputable def embedOut (hidden : List (List ℝ)) (mask : List ℕ) (hiddenSize : ℕ) :
    List ℝ :=
  l2normalize (pooledVec hidden mask hiddenSize)

/-- Reference definition taken from the specification wording: the
arithmetic mean of the per-token hidden vectors (componentwise sum divided
by the token count). -/
noncomputable def meanVec (hidden : List (List ℝ)) (hiddenSize : ℕ) : List ℝ :=
  (hidden.foldl (fun acc row => acc.zipWith (· + ·) row) (List.replicate hiddenSize 0)).map
    fun x => x / (hidden.length : ℝ)

/-- JS `Math.round(q * 1000) / 1000` (round half toward positive infinity). -/
def roundSim (q : ℚ) : ℚ :=
  (Int.floor (q * 1000 + 1/2) : ℚ) / 1000

/-- The parse oracle models `parseFileContent(content, filePath, mode)`
(the external tree-sitter extraction): `none` is a parse failure, which the
caller skips. -/
def ParseOracle : Type :=
  String → String → Option ParsedFile

/-- Core of `analyzeDirectory` with caching disabled (`noCache`), embeddings
enabled and at most `MAX_FILES_FOR_EMBEDDING` files: parse every readable
file (skipping parse failures), build the dependency graph, embed every
readable file's content (the embedding loop runs over `fileContents`, which
is keyed by the globbed `files`, not by the parsed ones), discover semantic
edges filtered against the dependency-edge keys, and append them to the
graph. `files` is the glob result paired with each file's content;
`embedOracle` models `Embedder.embed`. -/
def analyzePipeline (files : List (String × String)) (parse : ParseOracle)
    (gor : GitOracles) (gitDiff : Option GitDiffResult)
    (embedOracle : String → List ℚ) (similarityThreshold : ℚ) (maxPerFile : ℕ)
    (timestamp : ℕ) : TopologyGraph :=
  let parsedFiles := files.filterMap fun pc =>
    (parse pc.2 pc.1).map fun pf => { pf with filePath := pc.1 }
  let graph := buildGraph gor parsedFiles gitDiff timestamp
  let embeddings := files.map fun pc => (pc.1, embedOracle pc.2)
  let existingEdgeSet := graph.edges.map fun e => pairKey e.source e.target
  let semanticEdges := findSemanticEdges embeddings existingEdgeSet similarityThreshold maxPerFile
  { graph with
    edges := graph.edges ++ semanticEdges.map fun se =>
      { id := "semantic:" ++ pairKey se.source se.target
        source := se.source
        target := se.target
        isBroken := false
        linkType := some "semantic"
        similarity := some (roundSim se.similarity) } }

/-- Demo git oracles for the graph-builder witness: `b.ts` existed on the
base branch with a different export signature. -/
def bgDemoGor : GitOracles :=
  { getFileAtRef := fun p => if p = "b.ts" then some "old content" else none
    parseContentForExports := fun _ _ => "oldsig" }

/-- Demo parsed files for the graph-builder witness: `a.ts` imports `./b`. -/
def bgDemoFiles : List ParsedFile :=
  [{ filePath := "a.ts", language := .typescript
     imports := [{ source := "./b", isRelative := true }]
     exportSignature := "siga", contentHash := "ha" },
   { filePath := "b.ts", language := .typescript, imports := []
     exportSignature := "newsig", contentHash := "hb" }]

/-- Demo git diff for the graph-builder witness: `b.ts` is MODIFIED against
base branch `main`. -/
def bgDemoDiff : GitDiffResult :=
  { fileStatus := [("b.ts", .MODIFIED)], baseBranch := some "main"
    currentBranch := some "dev", hasUncommittedChanges := false }

/-- Demo parse oracle for the pipeline run: the content of `a.ts` parses,
the content of `b.ts` is a parse failure (`parseFileContent` returns null
and the file is skipped). -/
def pipelineDemoParse : ParseOracle := fun content path =>
  if content = "export const a = 1" then
    some { filePath := path, language := .typescript, imports := []
           exportSignature := "sig-a", contentHash := "h-a" }
  else none

/-- Demo git oracles for the pipeline run (no diff information is used). -/
def pipelineDemoGor : GitOracles :=
  { getFileAtRef := fun _ => none, parseContentForExports := fun _ _ => "" }

/-- A full pipeline run on two readable files, one of which fails to parse,
with both files' contents embedding to the same vector (the embedding loop
runs over all readable files, not only the parsed ones). -/
def pipelineDemoGraph : TopologyGraph :=
  analyzePipeline [("a.ts", "export const a = 1"), ("b.ts", "!!")] pipelineDemoParse
    pipelineDemoGor none (fun _ => [1]) (7/10) 3 0

/-- Embeddings map of the threshold-monotonicity counterexample: the file
names contain the `→` character used by the edge-key encoding, so the pair
(`x`, `y→z`) and the pair (`x→y`, `z`) share the dedup key `x→y→z`. -/
def arrowEmb : List (String × List ℚ) :=
  [("x", [1, 0, 0, 0]), ("y→z", [3/4, 0, 0, 0]), ("x→y", [0, 0, 1, 0]), ("z", [0, 0, 9/10, 0])]

/-- Embeddings map of the per-file-cap counterexample: `a` is similar to
both `b` and `c` (above the threshold 3/4) while `b` and `c` are not. -/
def hubEmb : List (String × List ℚ) :=
  [("a", [1, 0]), ("b", [9/10, 0]), ("c", [4/5, 3/5])]

/-- C7: a parse-cache lookup for path `P` with a content hash different from
the one stored for `P` is a miss: the `WHERE file_path = ? AND content_hash
= ?` condition rejects every row of `P`, so no stale payload is ever
returned for a mismatched hash. -/
theorem parseCacheGet_stale_hash_miss (table : List ParseRow) (p h₁ h₂ : String)
    (hold : ∀ r ∈ table, r.filePath = p → r.contentHash = h₁) (hne : h₂ ≠ h₁) :
    parseCacheGet table p h₂ = none := by
  simp only [parseCacheGet, List.find?_eq_none, decide_eq_true_eq, not_and]
  intro r hr hp hh
  exact hne ((hh.symm.trans (hold r hr hp)))

/-- Witness for C7 at a concrete upserted row. -/
theorem parseCacheGet_stale_hash_miss_witness :
    parseCacheGet
      (parseCacheSet []
        { filePath := "p.ts", contentHash := "h1", language := .typescript
          imports := [], exportSig := "s", cachedAt := 0 })
      "p.ts" "h2" = none :=
  parseCacheGet_stale_hash_miss _ "p.ts" "h1" "h2" (by decide) (by decide)

/-- C3 counterexample: an embedding-cache entry stored with encoder model
`model-A` is returned as a hit by a lookup performed while the current
model is the different `model-B` — the lookup takes no model identifier at
all, so a model change can never produce a miss. -/
theorem embCacheGet_hit_despite_model_change :
    (embCacheSet []
        { filePath := "a.ts", contentHash := "h1", embedding := [1/2]
          modelId := "model-A", cachedAt := 0 }).map (·.modelId) = ["model-A"] ∧
      ("model-B" : String) ≠ "model-A" ∧
      embCacheGet
        (embCacheSet []
          { filePath := "a.ts", contentHash := "h1", embedding := [1/2]
            modelId := "model-A", cachedAt := 0 })
        "a.ts" "h1" = some [1/2] := by
  refine ⟨by decide, by decide, by decide⟩

/-- C3 as amended: the embedding cache obeys the same hash-staleness rule as
the parse cache — a lookup for path `P` with a content hash different from
the stored one is a miss — but the stored model identifier is not consulted
by the lookup, so a model change does not invalidate entries. -/
theorem embCacheGet_stale_hash_miss (table : List EmbeddingRow) (p h₁ h₂ : String)
    (hold : ∀ r ∈ table, r.filePath = p → r.contentHash = h₁) (hne : h₂ ≠ h₁) :
    embCacheGet table p h₂ = none := by
  simp only [embCacheGet, Option.map_eq_none', List.find?_eq_none,
    decide_eq_true_eq, not_and]
  intro r hr hp hh
  exact hne ((hh.symm.trans (hold r hr hp)))

/-- Witness for the amended C3 at a concrete upserted row. -/
theorem embCacheGet_stale_hash_miss_witness :
    embCacheGet
      (embCacheSet []
        { filePath := "a.ts", contentHash := "h1", embedding := [1/2]
          modelId := "model-A", cachedAt := 0 })
      "a.ts" "h2" = none :=
  embCacheGet_stale_hash_miss _ "a.ts" "h1" "h2" (by decide) (by decide)

/-- C4 counterexample: opening a cache whose stored version marker (5)
exceeds `CURRENT_SCHEMA_VERSION` (4) does not recreate the store — the
`currentVersion < CURRENT_SCHEMA_VERSION` guard matches no migration branch
and `migrate` returns the database unchanged, rows and version marker
included, which differs from the freshly recreated empty store. -/
theorem openDb_newer_version_kept_not_recreated :
    openDb true true
        { schemaVersionTable := some (some 5), hasEmbeddings := true
          hasAuthTables := true, hasVectorSync := true
          parsedRows := [{ filePath := "a.ts", contentHash := "h", language := .typescript
                           imports := [], exportSig := "s", cachedAt := 0 }] } =
      { schemaVersionTable := some (some 5), hasEmbeddings := true
        hasAuthTables := true, hasVectorSync := true
        parsedRows := [{ filePath := "a.ts", contentHash := "h", language := .typescript
                         imports := [], exportSig := "s", cachedAt := 0 }] } ∧
      ({ schemaVersionTable := some (some 5), hasEmbeddings := true
         hasAuthTables := true, hasVectorSync := true
         parsedRows := [{ filePath := "a.ts", contentHash := "h", language := .typescript
                          imports := [], exportSig := "s", cachedAt := 0 }] } : DbState) ≠ freshDb := by
  refine ⟨by decide, by decide⟩

/-- C4 as amended: a failure to open the store, or a read/exec error during
migration, deletes the database and recreates it from the empty latest
schema (never half-initialized); but a stored version marker newer than
`CURRENT_SCHEMA_VERSION` triggers no rebuild — the store is returned
unchanged. -/
theorem openDb_rebuilds_on_failure_keeps_newer_version (db : DbState) (v : ℕ) :
    (∀ readOk, openDb false readOk db = freshDb) ∧
      openDb true false db = freshDb ∧
      (CURRENT_SCHEMA_VERSION < v → db.schemaVersionTable = some (some v) →
        openDb true true db = db) := by
  refine ⟨fun readOk => by simp [openDb], by simp [openDb, migrate], fun hv htab => ?_⟩
  have hnot : ¬ (v < 4) := by
    simp only [CURRENT_SCHEMA_VERSION] at hv
    omega
  simp [openDb, migrate, htab, CURRENT_SCHEMA_VERSION, hnot]

/-- Witness for the amended C4 at a concrete database with version marker 5. -/
theorem openDb_rebuilds_on_failure_keeps_newer_version_witness :
    openDb false true
        { schemaVersionTable := some (some 5), hasEmbeddings := false
          hasAuthTables := false, hasVectorSync := false, parsedRows := [] } = freshDb ∧
      openDb true true
          { schemaVersionTable := some (some 5), hasEmbeddings := false
            hasAuthTables := false, hasVectorSync := false, parsedRows := [] } =
        { schemaVersionTable := some (some 5), hasEmbeddings := false
          hasAuthTables := false, hasVectorSync := false, parsedRows := [] } :=
  ⟨(openDb_rebuilds_on_failure_keeps_newer_version _ 5).1 true,
    (openDb_rebuilds_on_failure_keeps_newer_version _ 5).2.2 (by decide) rfl⟩

/-- C2 (code bug): a full pipeline run on a readable file that fails to
parse produces a graph whose semantic-edge endpoint set is not contained in
its node-id set — the embedding phase iterates over all readable files
(`fileContents`), not over the parsed ones, so `b.ts` gets an embedding and
a semantic edge but no node. This violates the stated graph invariant. -/
theorem analyzePipeline_violates_edge_endpoint_invariant :
    ∃ e ∈ pipelineDemoGraph.edges,
      e.target ∉ pipelineDemoGraph.nodes.map (·.id) := by
  decide

/-- C1: in the graph produced by `buildGraph`, a dependency edge from
importer A to resolved target B is broken iff (B is tracked as
export-signature-changed — which requires B's status MODIFIED, a known base
branch and a differing base signature — and A's status is UNCHANGED) or
B's status is DELETED; in particular an importer that is itself MODIFIED is
only flagged when the target is DELETED, and a target absent from the base
branch (new file) is never counted as signature-changed. -/
theorem buildGraph_broken_edge_iff (gor : GitOracles) (files : List ParsedFile)
    (gitDiff : Option GitDiffResult) (ts : ℕ) :
    (∀ e ∈ (buildGraph gor files gitDiff ts).edges,
        (e.isBroken = true ↔
          ((e.target ∈ changedExportFiles gor gitDiff files ∧
              statusOf gitDiff e.source = .UNCHANGED) ∨
            statusOf gitDiff e.target = .DELETED))) ∧
      (∀ e ∈ (buildGraph gor files gitDiff ts).edges,
          statusOf gitDiff e.source = .MODIFIED →
            (e.isBroken = true ↔ statusOf gitDiff e.target = .DELETED)) ∧
      (∀ p, gor.getFileAtRef p = none → p ∉ changedExportFiles gor gitDiff files) := by
  have hedge : ∀ e ∈ (buildGraph gor files gitDiff ts).edges,
      e.isBroken = true ↔
        ((e.target ∈ changedExportFiles gor gitDiff files ∧
            statusOf gitDiff e.source = .UNCHANGED) ∨
          statusOf gitDiff e.target = .DELETED) := by
    intro e he
    simp only [buildGraph, List.mem_map] at he
    obtain ⟨⟨i, st⟩, hmem, rfl⟩ := he
    simp only [Bool.or_eq_true, Bool.and_eq_true, decide_eq_true_eq]
  refine ⟨hedge, fun e he hsrc => ?_, fun p hp hmem => ?_⟩
  · rw [hedge e he]
    constructor
    · rintro (⟨_, hunch⟩ | hdel)
      · exact absurd (hsrc.symm.trans hunch) (by decide)
      · exact hdel
    · exact fun hdel => Or.inr hdel
  · simp only [changedExportFiles, List.mem_filterMap] at hmem
    obtain ⟨f, _, hsome⟩ := hmem
    split at hsome
    · split at hsome
      · obtain rfl : f.filePath = p := Option.some.inj hsome
        rename_i hchk
        simp [checkExportSignatureChange, hp] at hchk
      · exact Option.noConfusion hsome
    · exact Option.noConfusion hsome

/-- Witness for C1: a concrete two-file project where `b.ts` is MODIFIED
with a changed export signature and `a.ts` (UNCHANGED) imports it over the
resolved edge `a.ts → b.ts`. -/
theorem buildGraph_broken_edge_iff_witness :
    ({ id := "e0", source := "a.ts", target := "b.ts", isBroken := true } :
        TopologyEdge).isBroken = true ↔
      (("b.ts" : String) ∈ changedExportFiles bgDemoGor (some bgDemoDiff) bgDemoFiles ∧
          statusOf (some bgDemoDiff) "a.ts" = .UNCHANGED) ∨
        statusOf (some bgDemoDiff) "b.ts" = .DELETED :=
  (buildGraph_broken_edge_iff bgDemoGor bgDemoFiles (some bgDemoDiff) 0).1
    { id := "e0", source := "a.ts", target := "b.ts", isBroken := true } (by decide)

/-- C9: the warning list returned by `detectConflicts` is sorted by severity
rank high (0), then medium (1), then low (2); in particular every
high-severity warning precedes every medium one, which precedes every low
one, whatever mix of direct, dependency and semantic conflicts one call
detects. -/
theorem detectConflicts_sorted_by_severity (currentBranch? base? : Option String)
    (currentModifiedFiles : List String) (otherBranches : List BranchInfo)
    (graph : TopologyGraph) (now : ℕ) :
    (detectConflicts currentBranch? base? currentModifiedFiles otherBranches graph now).Sorted
      sevLe := by
  unfold detectConflicts
  match currentBranch?, base? with
  | none, _ => exact List.sorted_nil
  | some _, none => exact List.sorted_nil
  | some cur, some base =>
    dsimp only
    split
    · exact List.sorted_nil
    · split
      · exact List.sorted_nil
      · exact List.sorted_insertionSort sevLe _

/-- Dedup selection only ever appends to the result list. -/
theorem mem_foldl_selectEdge_acc (L : List SemanticEdge)
    (st : List String × List SemanticEdge) (x : SemanticEdge) (hx : x ∈ st.2) :
    x ∈ (L.foldl selectEdge st).2 := by
  induction L generalizing st with
  | nil => exact hx
  | cons e L ih =>
    refine ih (selectEdge st e) ?_
    unfold selectEdge
    split
    · exact hx
    · exact List.mem_append_left _ hx

/-- Every element of the inner selection fold comes from the accumulator or
from the examined list. -/
theorem mem_foldl_selectEdge (L : List SemanticEdge)
    (st : List String × List SemanticEdge) (x : SemanticEdge)
    (hx : x ∈ (L.foldl selectEdge st).2) : x ∈ st.2 ∨ x ∈ L := by
  induction L generalizing st with
  | nil => exact Or.inl hx
  | cons e L ih =>
    rcases ih (selectEdge st e) hx with h | h
    · unfold selectEdge at h
      split at h
      · exact Or.inl h
      · rcases List.mem_append.mp h with h | h
        · exact Or.inl h
        · have hx' : x = e := by simpa using h
          exact Or.inr (hx' ▸ List.mem_cons_self e L)
    · exact Or.inr (List.mem_cons_of_mem _ h)

/-- The selected-key list is always the image of the result list under
`edgeKey`. -/
theorem foldl_selectEdge_key_inv (L : List SemanticEdge)
    (st : List String × List SemanticEdge) (hst : st.1 = st.2.map edgeKey) :
    (L.foldl selectEdge st).1 = (L.foldl selectEdge st).2.map edgeKey := by
  induction L generalizing st with
  | nil => exact hst
  | cons e L ih =>
    refine ih (selectEdge st e) ?_
    unfold selectEdge
    split
    · exact hst
    · simp [hst]

/-- If the dedup keys are injective on a domain containing the accumulator
and the examined list, every examined edge ends up in the result. -/
theorem mem_foldl_selectEdge_complete (D : List SemanticEdge)
    (hinj : ∀ e₁ ∈ D, ∀ e₂ ∈ D, edgeKey e₁ = edgeKey e₂ → e₁ = e₂)
    (L : List SemanticEdge) (st : List String × List SemanticEdge)
    (hst : st.1 = st.2.map edgeKey) (hacc : ∀ a ∈ st.2, a ∈ D) (hL : ∀ a ∈ L, a ∈ D)
    (x : SemanticEdge) (hx : x ∈ L) : x ∈ (L.foldl selectEdge st).2 := by
  induction L generalizing st with
  | nil => cases hx
  | cons e L ih =>
    have hacc' : ∀ a ∈ (selectEdge st e).2, a ∈ D := by
      intro a ha
      unfold selectEdge at ha
      split at ha
      · exact hacc a ha
      · rcases List.mem_append.mp ha with h | h
        · exact hacc a h
        · simpa using (List.mem_singleton.mp h) ▸ hL e (List.mem_cons_self e L)
    have hst' : (selectEdge st e).1 = (selectEdge st e).2.map edgeKey := by
      unfold selectEdge
      split
      · exact hst
      · simp [hst]
    rcases List.mem_cons.mp hx with heq | hx'
    · refine mem_foldl_selectEdge_acc L (selectEdge st e) x ?_
      unfold selectEdge
      split
      · rename_i hkey
        rw [hst] at hkey
        obtain ⟨e', he', hke⟩ := List.mem_map.mp hkey
        have he'x : e' = x :=
          hinj e' (hacc e' he') x (hL x hx) (hke.trans (congrArg edgeKey heq.symm))
        exact he'x ▸ he'
      · exact List.mem_append_right _ (List.mem_singleton.mpr heq)
    · exact ih (selectEdge st e) hst' hacc' (fun a ha => hL a (List.mem_cons_of_mem _ ha)) hx'

/-- Everything examined by a file's selection pass is a candidate. -/
theorem mem_of_mem_take_sortedCands (f : String) (cands : List SemanticEdge) (k : ℕ)
    (x : SemanticEdge) (hx : x ∈ (sortedCands f cands).take k) : x ∈ cands :=
  (List.filter_subset' _)
    ((List.mem_insertionSort simDesc).mp (List.take_subset k _ hx))

/-- Everything examined by a file's selection pass is incident to the file. -/
theorem endpoint_of_mem_take_sortedCands (f : String) (cands : List SemanticEdge) (k : ℕ)
    (x : SemanticEdge) (hx : x ∈ (sortedCands f cands).take k) :
    x.source = f ∨ x.target = f := by
  have hx' : x ∈ candsFor f cands :=
    (List.mem_insertionSort simDesc).mp (List.take_subset k _ hx)
  have := (List.mem_filter.mp hx').2
  simpa using this

/-- The outer selection fold only ever appends to the result list. -/
theorem mem_foldl_selectStep_acc (k : ℕ) (cands : List SemanticEdge) (ks : List String)
    (st : List String × List SemanticEdge) (x : SemanticEdge) (hx : x ∈ st.2) :
    x ∈ (ks.foldl (selectStep k cands) st).2 := by
  induction ks generalizing st with
  | nil => exact hx
  | cons f ks ih => exact ih _ (mem_foldl_selectEdge_acc _ st x hx)

/-- Every element of the outer selection fold comes from the accumulator or
from some processed file's examined top-K list. -/
theorem mem_foldl_selectStep (k : ℕ) (cands : List SemanticEdge) (ks : List String)
    (st : List String × List SemanticEdge) (x : SemanticEdge)
    (hx : x ∈ (ks.foldl (selectStep k cands) st).2) :
    x ∈ st.2 ∨ ∃ f ∈ ks, x ∈ (sortedCands f cands).take k := by
  induction ks generalizing st with
  | nil => exact Or.inl hx
  | cons f ks ih =>
    rcases ih (selectStep k cands st f) hx with h | ⟨g, hg, hgx⟩
    · rcases mem_foldl_selectEdge _ st x h with h | h
      · exact Or.inl h
      · exact Or.inr ⟨f, List.mem_cons_self f ks, h⟩
    · exact Or.inr ⟨g, List.mem_cons_of_mem _ hg, hgx⟩

/-- The key invariant is preserved by the outer selection fold. -/
theorem foldl_selectStep_key_inv (k : ℕ) (cands : List SemanticEdge) (ks : List String)
    (st : List String × List SemanticEdge) (hst : st.1 = st.2.map edgeKey) :
    (ks.foldl (selectStep k cands) st).1 = (ks.foldl (selectStep k cands) st).2.map edgeKey := by
  induction ks generalizing st with
  | nil => exact hst
  | cons f ks ih => exact ih _ (foldl_selectEdge_key_inv _ st hst)

/-- The result of the outer selection fold stays inside the candidate set. -/
theorem foldl_selectStep_subset (k : ℕ) (cands : List SemanticEdge) (ks : List String)
    (st : List String × List SemanticEdge) (hacc : ∀ a ∈ st.2, a ∈ cands) :
    ∀ a ∈ (ks.foldl (selectStep k cands) st).2, a ∈ cands := by
  intro a ha
  rcases mem_foldl_selectStep k cands ks st a ha with h | ⟨f, _, hf⟩
  · exact hacc a h
  · exact mem_of_mem_take_sortedCands f cands k a hf

/-- With injective dedup keys, every edge examined by a processed file's
pass ends up in the outer fold's result. -/
theorem mem_foldl_selectStep_complete (k : ℕ) (cands : List SemanticEdge)
    (hinj : ∀ e₁ ∈ cands, ∀ e₂ ∈ cands, edgeKey e₁ = edgeKey e₂ → e₁ = e₂)
    (ks : List String) (st : List String × List SemanticEdge)
    (hst : st.1 = st.2.map edgeKey) (hacc : ∀ a ∈ st.2, a ∈ cands)
    (f : String) (hf : f ∈ ks) (x : SemanticEdge)
    (hx : x ∈ (sortedCands f cands).take k) :
    x ∈ (ks.foldl (selectStep k cands) st).2 := by
  induction ks generalizing st with
  | nil => cases hf
  | cons g ks ih =>
    have hacc' : ∀ a ∈ (selectStep k cands st g).2, a ∈ cands := by
      intro a ha
      rcases mem_foldl_selectEdge _ st a ha with h | h
      · exact hacc a h
      · exact mem_of_mem_take_sortedCands g cands k a h
    have hst' := foldl_selectEdge_key_inv ((sortedCands g cands).take k) st hst
    rcases List.mem_cons.mp hf with heq | hf'
    · refine mem_foldl_selectStep_acc k cands ks _ x ?_
      exact mem_foldl_selectEdge_complete cands hinj _ st hst hacc
        (fun a ha => mem_of_mem_take_sortedCands g cands k a ha) x (heq ▸ hx)
    · exact ih _ hst' hacc' hf'

/-- Membership in `insertKey`. -/
theorem mem_insertKey (acc : List String) (y x : String) :
    x ∈ insertKey acc y ↔ x ∈ acc ∨ x = y := by
  unfold insertKey
  split
  · rename_i hy
    constructor
    · exact Or.inl
    · rintro (h | rfl)
      · exact h
      · exact hy
  · simp

/-- Membership in the accumulated file-key fold. -/
theorem mem_fileKeys_foldl (cands : List SemanticEdge) (acc : List String) (x : String) :
    x ∈ cands.foldl (fun acc e => insertKey (insertKey acc e.source) e.target) acc ↔
      x ∈ acc ∨ ∃ e ∈ cands, x = e.source ∨ x = e.target := by
  induction cands generalizing acc with
  | nil => simp
  | cons e cands ih =>
    rw [List.foldl_cons, ih]
    rw [mem_insertKey, mem_insertKey]
    constructor
    · rintro (((h | h) | h) | ⟨e', he', h⟩)
      · exact Or.inl h
      · exact Or.inr ⟨e, List.mem_cons_self e cands, Or.inl h⟩
      · exact Or.inr ⟨e, List.mem_cons_self e cands, Or.inr h⟩
      · exact Or.inr ⟨e', List.mem_cons_of_mem _ he', h⟩
    · rintro (h | ⟨e', he', h⟩)
      · exact Or.inl (Or.inl (Or.inl h))
      · rcases List.mem_cons.mp he' with heq | he''
        · subst heq
          rcases h with h | h
          · exact Or.inl (Or.inl (Or.inr h))
          · exact Or.inl (Or.inr h)
        · exact Or.inr ⟨e', he'', h⟩

/-- A file is a key of `candidatesByFile` iff it is an endpoint of some
candidate. -/
theorem mem_fileKeys (cands : List SemanticEdge) (x : String) :
    x ∈ fileKeys cands ↔ ∃ e ∈ cands, x = e.source ∨ x = e.target := by
  rw [fileKeys, mem_fileKeys_foldl]
  simp

/-- Characterization, forward direction: every returned edge was examined
during some file's top-K pass. -/
theorem mem_findSemanticEdges_examined (embeddings : List (String × List ℚ))
    (existingEdgeSet : List String) (threshold : ℚ) (maxPerFile : ℕ) (e : SemanticEdge)
    (he : e ∈ findSemanticEdges embeddings existingEdgeSet threshold maxPerFile) :
    ∃ f ∈ fileKeys (candidateEdges embeddings existingEdgeSet threshold),
      e ∈ (sortedCands f (candidateEdges embeddings existingEdgeSet threshold)).take maxPerFile := by
  unfold findSemanticEdges at he
  have he' := (List.mem_insertionSort simDesc).mp he
  rcases mem_foldl_selectStep maxPerFile _ _ ([], []) e he' with h | h
  · cases h
  · exact h

/-- Characterization, backward direction (needs injective dedup keys):
every edge examined during some file's top-K pass is returned. -/
theorem mem_findSemanticEdges_of_examined (embeddings : List (String × List ℚ))
    (existingEdgeSet : List String) (threshold : ℚ) (maxPerFile : ℕ)
    (hinj : ∀ e₁ ∈ candidateEdges embeddings existingEdgeSet threshold,
      ∀ e₂ ∈ candidateEdges embeddings existingEdgeSet threshold,
        edgeKey e₁ = edgeKey e₂ → e₁ = e₂)
    (f : String) (hf : f ∈ fileKeys (candidateEdges embeddings existingEdgeSet threshold))
    (e : SemanticEdge)
    (he : e ∈ (sortedCands f (candidateEdges embeddings existingEdgeSet threshold)).take maxPerFile) :
    e ∈ findSemanticEdges embeddings existingEdgeSet threshold maxPerFile := by
  unfold findSemanticEdges
  refine (List.mem_insertionSort simDesc).mpr ?_
  exact mem_foldl_selectStep_complete maxPerFile _ hinj _ ([], []) rfl (by simp) f hf e he

/-- C6 counterexample: with `maxPerFile = 1`, the hub file `a` ends up as an
endpoint of 2 returned edges — its own pass contributes its best candidate
(`a`–`b`), but the pass of file `c` independently contributes `a`–`c`,
which counts against `c`'s cap only. The per-endpoint degree bound claimed
for the whole returned list is therefore violated. -/
theorem findSemanticEdges_per_file_cap_refuted :
    ((findSemanticEdges hubEmb [] (3/4) 1).filter fun e =>
        e.source = "a" ∨ e.target = "a").length = 2 ∧ (1 : ℕ) < 2 := by
  refine ⟨by decide, by decide⟩

/-- C6 as amended: the per-file cap bounds each file's own selection pass,
not the endpoint degree of the final list — every returned edge lies within
the top-`maxPerFile` sorted candidates of at least one of its two
endpoints (so each file's own pass contributes at most `maxPerFile` edges,
but an endpoint can accumulate more through its partners' passes). -/
theorem findSemanticEdges_mem_endpoint_topK (embeddings : List (String × List ℚ))
    (existingEdgeSet : List String) (threshold : ℚ) (maxPerFile : ℕ) (e : SemanticEdge)
    (he : e ∈ findSemanticEdges embeddings existingEdgeSet threshold maxPerFile) :
    e ∈ (sortedCands e.source (candidateEdges embeddings existingEdgeSet threshold)).take maxPerFile ∨
      e ∈ (sortedCands e.target (candidateEdges embeddings existingEdgeSet threshold)).take maxPerFile := by
  obtain ⟨f, _, hf⟩ :=
    mem_findSemanticEdges_examined embeddings existingEdgeSet threshold maxPerFile e he
  rcases endpoint_of_mem_take_sortedCands f _ maxPerFile e hf with h | h
  · exact Or.inl (h ▸ hf)
  · exact Or.inr (h ▸ hf)

/-- Witness for the amended C6 at the hub instance. -/
theorem findSemanticEdges_mem_endpoint_topK_witness :
    ({ source := "a", target := "b", similarity := 9/10 } : SemanticEdge) ∈
        (sortedCands "a" (candidateEdges hubEmb [] (3/4))).take 1 ∨
      ({ source := "a", target := "b", similarity := 9/10 } : SemanticEdge) ∈
        (sortedCands "b" (candidateEdges hubEmb [] (3/4))).take 1 :=
  findSemanticEdges_mem_endpoint_topK hubEmb [] (3/4) 1
    { source := "a", target := "b", similarity := 9/10 } (by decide)

/-- Inserting an element related to everything in the list puts it in
front. -/
theorem orderedInsert_of_forall_rel {α : Type} {r : α → α → Prop} [DecidableRel r]
    {a : α} {L : List α} (h : ∀ c ∈ L, r a c) : L.orderedInsert r a = a :: L := by
  cases L with
  | nil => rfl
  | cons b L => exact List.orderedInsert_of_le r L (h b (List.mem_cons_self b L))

/-- Filtering commutes with ordered insertion of a kept element into a
sorted list. -/
theorem filter_orderedInsert_pos {α : Type} {r : α → α → Prop} [DecidableRel r]
    [IsTrans α r] {p : α → Bool} {a : α} (hpa : p a = true) :
    ∀ {L : List α}, L.Sorted r →
      (L.orderedInsert r a).filter p = (L.filter p).orderedInsert r a := by
  intro L
  induction L with
  | nil => intro _; simp [List.orderedInsert, hpa]
  | cons b L ih =>
    intro hs
    by_cases hr : r a b
    · rw [List.orderedInsert_of_le r L hr]
      by_cases hpb : p b = true
      · rw [List.filter_cons_of_pos hpa, List.filter_cons_of_pos hpb,
          List.orderedInsert_of_le r _ hr]
      · have hpb' : ¬ p b = true := hpb
        rw [List.filter_cons_of_pos hpa, List.filter_cons_of_neg hpb']
        refine (orderedInsert_of_forall_rel fun c hc => ?_).symm
        have hc' : c ∈ L := List.mem_of_mem_filter hc
        exact Trans.trans hr (List.rel_of_sorted_cons hs c hc')
    · have hoi : (b :: L).orderedInsert r a = b :: L.orderedInsert r a := by
        simp [List.orderedInsert, hr]
      rw [hoi]
      by_cases hpb : p b = true
      · rw [List.filter_cons_of_pos hpb, List.filter_cons_of_pos hpb, ih hs.of_cons]
        have hoi2 : (b :: L.filter p).orderedInsert r a =
            b :: (L.filter p).orderedInsert r a := by
          simp [List.orderedInsert, hr]
        rw [hoi2]
      · have hpb' : ¬ p b = true := hpb
        rw [List.filter_cons_of_neg hpb', List.filter_cons_of_neg hpb', ih hs.of_cons]

/-- Filtering out the inserted element removes it again. -/
theorem filter_orderedInsert_neg {α : Type} {r : α → α → Prop} [DecidableRel r]
    {p : α → Bool} {a : α} (hpa : p a = false) :
    ∀ (L : List α), (L.orderedInsert r a).filter p = L.filter p := by
  intro L
  induction L with
  | nil => simp [List.orderedInsert, hpa]
  | cons b L ih =>
    by_cases hr : r a b
    · rw [List.orderedInsert_of_le r L hr,
        List.filter_cons_of_neg (by simp [hpa])]
    · have hoi : (b :: L).orderedInsert r a = b :: L.orderedInsert r a := by
        simp [List.orderedInsert, hr]
      rw [hoi]
      by_cases hpb : p b = true
      · rw [List.filter_cons_of_pos hpb, List.filter_cons_of_pos hpb, ih]
      · have hpb' : ¬ p b = true := hpb
        rw [List.filter_cons_of_neg hpb', List.filter_cons_of_neg hpb', ih]

/-- A stable sort commutes with filtering. -/
theorem insertionSort_filter {α : Type} {r : α → α → Prop} [DecidableRel r]
    [IsTotal α r] [IsTrans α r] (p : α → Bool) (l : List α) :
    (l.filter p).insertionSort r = (l.insertionSort r).filter p := by
  induction l with
  | nil => rfl
  | cons a l ih =>
    by_cases hpa : p a = true
    · rw [List.filter_cons_of_pos hpa]
      show ((a :: l.filter p).insertionSort r) = _
      rw [List.insertionSort, ih, List.insertionSort,
        filter_orderedInsert_pos hpa (List.sorted_insertionSort r l)]
    · have hpa' : ¬ p a = true := hpa
      have hpa'' : p a = false := Bool.eq_false_iff.mpr hpa'
      rw [List.filter_cons_of_neg hpa', List.insertionSort,
        filter_orderedInsert_neg hpa'', ih]

/-- On a sorted list, filtering by an upward-closed predicate is a prefix
operation. -/
theorem sorted_filter_eq_takeWhile {α : Type} {r : α → α → Prop} {p : α → Bool}
    (hcl : ∀ a b, r a b → p b = true → p a = true) :
    ∀ {l : List α}, l.Sorted r → l.filter p = l.takeWhile p := by
  intro l
  induction l with
  | nil => intro _; rfl
  | cons a l ih =>
    intro hs
    by_cases hpa : p a = true
    · rw [List.filter_cons_of_pos hpa, List.takeWhile_cons_of_pos hpa, ih hs.of_cons]
    · have hpa' : ¬ p a = true := hpa
      rw [List.filter_cons_of_neg hpa', List.takeWhile_cons_of_neg hpa']
      refine List.filter_eq_nil_iff.mpr fun b hb => fun hpb => ?_
      exact hpa' (hcl a b (List.rel_of_sorted_cons hs b hb) hpb)

/-- Membership in the first `k` elements of a prefix gives membership in the
first `k` elements of the whole list. -/
theorem mem_take_takeWhile {α : Type} (p : α → Bool) :
    ∀ (l : List α) (k : ℕ) (x : α), x ∈ (l.takeWhile p).take k → x ∈ l.take k := by
  intro l
  induction l with
  | nil => intro k x hx; simp at hx
  | cons a l ih =>
    intro k x hx
    by_cases hpa : p a = true
    · rw [List.takeWhile_cons_of_pos hpa] at hx
      cases k with
      | zero => simp at hx
      | succ k =>
        rw [List.take_succ_cons] at hx ⊢
        rcases List.mem_cons.mp hx with heq | hx'
        · exact heq ▸ List.mem_cons_self _ _
        · exact List.mem_cons_of_mem _ (ih k x hx')
    · rw [List.takeWhile_cons_of_neg hpa] at hx
      simp at hx

/-- A `filterMap` whose generator is the other generator followed by a
filter equals filtering the other `filterMap`. -/
theorem filterMap_filter_of_step {α β : Type} (g₁ g₂ : α → Option β) (p : β → Bool)
    (hstep : ∀ a, g₂ a = (g₁ a).bind fun b => if p b = true then some b else none) :
    ∀ l : List α, l.filterMap g₂ = (l.filterMap g₁).filter p := by
  intro l
  induction l with
  | nil => rfl
  | cons a l ih =>
    rw [List.filterMap_cons, List.filterMap_cons, hstep a]
    cases hg : g₁ a with
    | none => simpa using ih
    | some b =>
      by_cases hpb : p b = true
      · rw [Option.some_bind, if_pos hpb, List.filter_cons_of_pos hpb, ih]
      · rw [Option.some_bind, if_neg hpb, List.filter_cons_of_neg hpb, ih]

/-- Raising the threshold filters the candidate list: the pair scan, the
existing-edge exclusion and each pair's similarity are threshold
independent, and a pair passes the higher threshold iff it passes the lower
one with similarity at least the higher. -/
theorem candidateEdges_filter (embeddings : List (String × List ℚ))
    (existingEdgeSet : List String) {t₁ t₂ : ℚ} (h : t₁ ≤ t₂) :
    candidateEdges embeddings existingEdgeSet t₂ =
      (candidateEdges embeddings existingEdgeSet t₁).filter fun e =>
        decide (t₂ ≤ e.similarity) := by
  unfold candidateEdges
  refine filterMap_filter_of_step _ _ _ (fun ab => ?_) _
  by_cases hex : pairKey ab.1 ab.2 ∈ existingEdgeSet ∨ pairKey ab.2 ab.1 ∈ existingEdgeSet
  · simp only [if_pos hex, Option.none_bind]
  · simp only [if_neg hex]
    by_cases h1 : cosineSimilarity (lookupVec embeddings ab.1) (lookupVec embeddings ab.2) < t₁
    · have h2 : cosineSimilarity (lookupVec embeddings ab.1) (lookupVec embeddings ab.2) < t₂ :=
        lt_of_lt_of_le h1 h
      rw [if_pos h2, if_pos h1, Option.none_bind]
    · rw [if_neg h1, Option.some_bind]
      by_cases h2 : cosineSimilarity (lookupVec embeddings ab.1) (lookupVec embeddings ab.2) < t₂
      · rw [if_pos h2, if_neg ?_]
        simp only [decide_eq_true_eq]
        exact not_le.mpr h2
      · rw [if_neg h2, if_pos ?_]
        simp only [decide_eq_true_eq]
        exact not_lt.mp h2

/-- Per-file candidate lists commute with filtering. -/
theorem candsFor_filter (f : String) (p : SemanticEdge → Bool) (cands : List SemanticEdge) :
    candsFor f (cands.filter p) = (candsFor f cands).filter p := by
  unfold candsFor
  rw [List.filter_filter, List.filter_filter]
  congr 1
  funext e
  exact Bool.and_comm _ _

/-- Whatever a file's pass examines at the higher threshold it also
examines at the lower one: the higher-threshold sorted candidate list is a
prefix of the lower-threshold one (the trailing candidates sit strictly
below the higher threshold, and the stable sort keeps relative order). -/
theorem mem_take_sortedCands_sub (f : String) (embeddings : List (String × List ℚ))
    (existingEdgeSet : List String) {t₁ t₂ : ℚ} (h : t₁ ≤ t₂) (k : ℕ) (e : SemanticEdge)
    (he : e ∈ (sortedCands f (candidateEdges embeddings existingEdgeSet t₂)).take k) :
    e ∈ (sortedCands f (candidateEdges embeddings existingEdgeSet t₁)).take k := by
  have hrw : sortedCands f (candidateEdges embeddings existingEdgeSet t₂) =
      (sortedCands f (candidateEdges embeddings existingEdgeSet t₁)).takeWhile
        fun e => decide (t₂ ≤ e.similarity) := by
    unfold sortedCands
    rw [candidateEdges_filter embeddings existingEdgeSet h, candsFor_filter,
      insertionSort_filter]
    refine sorted_filter_eq_takeWhile (fun a b hab hpb => ?_)
      (List.sorted_insertionSort simDesc _)
    simp only [decide_eq_true_eq] at hpb ⊢
    exact le_trans hpb hab
  rw [hrw] at he
  exact mem_take_takeWhile _ _ k e he

/-- C5 counterexample: when file paths contain the `→` character of the
dedup-key encoding, two distinct candidate pairs can share a key. Here the
pairs (`x`, `y→z`) and (`x→y`, `z`) both have key `x→y→z`; at threshold
7/10 the first (similarity 3/4) is selected before the second (similarity
9/10) is examined, so the second is dedup-suppressed — yet at the strictly
higher threshold 4/5 the first is gone and the second is returned. The
returned set at the higher threshold is therefore not a subset of the one
at the lower threshold. -/
theorem findSemanticEdges_threshold_subset_refuted :
    (7/10 : ℚ) < 4/5 ∧
      ({ source := "x→y", target := "z", similarity := 9/10 } : SemanticEdge) ∈
        findSemanticEdges arrowEmb [] (4/5) 3 ∧
      ({ source := "x→y", target := "z", similarity := 9/10 } : SemanticEdge) ∉
        findSemanticEdges arrowEmb [] (7/10) 3 := by
  refine ⟨by decide, by decide, by decide⟩

/-- C5 as amended: for the same embeddings, existing-edge set and per-file
cap, and thresholds `t₁ < t₂`, every semantic edge returned at `t₂` is also
returned at `t₁` — provided the dedup-key encoding `source ++ "→" ++
target` is injective on the candidate pairs (true in particular whenever no
file path contains the `→` character; without it the key collision of the
counterexample can suppress an edge at the lower threshold only). -/
theorem findSemanticEdges_threshold_subset (embeddings : List (String × List ℚ))
    (existingEdgeSet : List String) (maxPerFile : ℕ) {t₁ t₂ : ℚ} (ht : t₁ < t₂)
    (hinj : ∀ e₁ ∈ candidateEdges embeddings existingEdgeSet t₁,
      ∀ e₂ ∈ candidateEdges embeddings existingEdgeSet t₁,
        edgeKey e₁ = edgeKey e₂ → e₁ = e₂) :
    ∀ e ∈ findSemanticEdges embeddings existingEdgeSet t₂ maxPerFile,
      e ∈ findSemanticEdges embeddings existingEdgeSet t₁ maxPerFile := by
  intro e he
  obtain ⟨f, hfk, hf⟩ :=
    mem_findSemanticEdges_examined embeddings existingEdgeSet t₂ maxPerFile e he
  have hf₁ : e ∈ (sortedCands f (candidateEdges embeddings existingEdgeSet t₁)).take maxPerFile :=
    mem_take_sortedCands_sub f embeddings existingEdgeSet ht.le maxPerFile e hf
  have hfk₁ : f ∈ fileKeys (candidateEdges embeddings existingEdgeSet t₁) := by
    rw [mem_fileKeys] at hfk ⊢
    obtain ⟨e', he', hend⟩ := hfk
    rw [candidateEdges_filter embeddings existingEdgeSet ht.le] at he'
    exact ⟨e', List.mem_of_mem_filter he', hend⟩
  exact mem_findSemanticEdges_of_examined embeddings existingEdgeSet t₁ maxPerFile hinj
    f hfk₁ e hf₁

/-- Witness for the amended C5 at the hub instance (arrow-free paths, hence
injective keys): the top edge returned at threshold 4/5 is also returned at
threshold 7/10. -/
theorem findSemanticEdges_threshold_subset_witness :
    ({ source := "a", target := "b", similarity := 9/10 } : SemanticEdge) ∈
      findSemanticEdges hubEmb [] (7/10) 1 :=
  @findSemanticEdges_threshold_subset hubEmb [] 1 (7/10) (4/5) (by decide) (by decide)
    { source := "a", target := "b", similarity := 9/10 } (by decide)

/-- A sum of squares is nonnegative. -/
theorem sumSq_nonneg (v : List ℝ) : 0 ≤ sumSq v := by
  induction v with
  | nil => simp [sumSq]
  | cons a v ih =>
    simp only [sumSq, List.map_cons, List.sum_cons]
    exact add_nonneg (mul_self_nonneg a) ih

/-- A vector with a non-zero coordinate has positive sum of squares. -/
theorem sumSq_pos_of_mem (v : List ℝ) (x : ℝ) (hx : x ∈ v) (hx0 : x ≠ 0) :
    0 < sumSq v := by
  induction v with
  | nil => cases hx
  | cons a v ih =>
    simp only [sumSq, List.map_cons, List.sum_cons]
    rcases List.mem_cons.mp hx with heq | hmem
    · exact add_pos_of_pos_of_nonneg (heq ▸ mul_self_pos.mpr hx0) (sumSq_nonneg v)
    · exact add_pos_of_nonneg_of_pos (mul_self_nonneg a) (ih hmem)

/-- An all-zero vector has zero sum of squares. -/
theorem sumSq_eq_zero (v : List ℝ) (h : ∀ x ∈ v, x = 0) : sumSq v = 0 := by
  induction v with
  | nil => rfl
  | cons a v ih =>
    have ihv : sumSq v = 0 := ih fun x hx => h x (List.mem_cons_of_mem a hx)
    simp only [sumSq, List.map_cons, List.sum_cons] at ihv ⊢
    rw [h a (List.mem_cons_self a v), ihv]
    simp

/-- Dividing every coordinate divides the sum of squares by the square. -/
theorem sumSq_map_div (v : List ℝ) (c : ℝ) :
    sumSq (v.map fun x => x / c) = sumSq v / (c * c) := by
  induction v with
  | nil => simp [sumSq]
  | cons a v ih =>
    simp only [sumSq, List.map_cons, List.sum_cons] at ih ⊢
    rw [ih, div_mul_div_comm, add_div]

/-- Under an all-ones attention mask, the accumulation loop computes the
plain componentwise sum and counts every position. -/
theorem poolLoop_ones (hidden : List (List ℝ)) :
    ∀ (p₀ : List ℝ) (s : ℕ),
      ((List.replicate hidden.length (1 : ℕ)).zip hidden).foldl
          (fun st mr =>
            if mr.1 = 0 then st
            else ((st.1.zipWith (fun p h => p + h * (mr.1 : ℝ)) mr.2), st.2 + mr.1))
          (p₀, s) =
        (hidden.foldl (fun acc row => acc.zipWith (· + ·) row) p₀, s + hidden.length) := by
  induction hidden with
  | nil => intro p₀ s; simp
  | cons row hidden ih =>
    intro p₀ s
    simp only [List.length_cons, List.replicate_succ, List.zip_cons_cons, List.foldl_cons]
    norm_num
    rw [ih]
    refine Prod.ext rfl ?_
    simp only
    omega

/-- The mask count accumulated by the pooling loop is the sum of the zipped
mask entries. -/
theorem poolLoop_maskSum (pairs : List (ℕ × List ℝ)) :
    ∀ st : List ℝ × ℕ,
      (pairs.foldl
          (fun st mr =>
            if mr.1 = 0 then st
            else ((st.1.zipWith (fun p h => p + h * (mr.1 : ℝ)) mr.2), st.2 + mr.1))
          st).2 = st.2 + (pairs.map Prod.fst).sum := by
  induction pairs with
  | nil => intro st; simp
  | cons mr pairs ih =>
    intro st
    simp only [List.foldl_cons, List.map_cons, List.sum_cons]
    by_cases hm : mr.1 = 0
    · rw [if_pos hm, ih, hm]
      omega
    · rw [if_neg hm, ih]
      dsimp only
      omega

/-- An all-zero mask leaves the pooling state untouched. -/
theorem poolLoop_zero_mask (mask : List ℕ) :
    ∀ (hidden : List (List ℝ)) (p₀ : List ℝ), (∀ m ∈ mask, m = 0) →
      poolLoop hidden mask p₀ = (p₀, 0) := by
  induction mask with
  | nil => intro hidden p₀ _; cases hidden <;> rfl
  | cons m mask ih =>
    intro hidden p₀ hz
    cases hidden with
    | nil => rfl
    | cons row hidden =>
      unfold poolLoop
      simp only [List.zip_cons_cons, List.foldl_cons,
        if_pos (hz m (List.mem_cons_self m mask))]
      exact ih hidden p₀ fun x hx => hz x (List.mem_cons_of_mem m hx)

/-- Under an all-ones attention mask the pooled vector is the arithmetic
mean of the per-token hidden vectors. -/
theorem pooledVec_ones (hidden : List (List ℝ)) (hiddenSize : ℕ) :
    pooledVec hidden (List.replicate hidden.length 1) hiddenSize =
      meanVec hidden hiddenSize := by
  have hpool : poolLoop hidden (List.replicate hidden.length 1)
      (List.replicate hiddenSize 0) =
      (hidden.foldl (fun acc row => acc.zipWith (· + ·) row) (List.replicate hiddenSize 0),
        0 + hidden.length) := poolLoop_ones hidden (List.replicate hiddenSize 0) 0
  unfold pooledVec
  rw [hpool, Nat.zero_add]
  by_cases hn : hidden.length = 0
  · rcases List.length_eq_zero.mp hn with rfl
    simp [meanVec]
  · have hpos : 0 < hidden.length := Nat.pos_of_ne_zero hn
    have hcond : ((hidden.foldl (fun acc row => acc.zipWith (· + ·) row)
        (List.replicate hiddenSize 0), hidden.length) : List ℝ × ℕ).2 > 0 := hpos
    rw [if_pos hcond]
    rfl

/-- C8: the pooling and normalization tail of `Embedder.embed` satisfies:
with an all-ones attention mask the pooled vector is the arithmetic mean of
the per-token hidden vectors; whenever the pooled (pre-normalization)
vector is non-zero the returned vector has L2 norm exactly 1 (floats are
idealized as reals); when the pooled vector is zero, and in particular when
the mask count is zero, the zero vector is returned instead of dividing. -/
theorem embed_pooling_normalization_props (hidden : List (List ℝ)) (mask : List ℕ)
    (hiddenSize : ℕ) :
    (mask = List.replicate hidden.length 1 →
        pooledVec hidden mask hiddenSize = meanVec hidden hiddenSize) ∧
      ((∃ x ∈ pooledVec hidden mask hiddenSize, x ≠ 0) →
        l2norm (embedOut hidden mask hiddenSize) = 1) ∧
      ((∀ x ∈ pooledVec hidden mask hiddenSize, x = 0) →
        embedOut hidden mask hiddenSize =
          List.replicate (pooledVec hidden mask hiddenSize).length 0) ∧
      ((∀ m ∈ mask, m = 0) →
        embedOut hidden mask hiddenSize = List.replicate hiddenSize 0) := by
  have hc : (∀ x ∈ pooledVec hidden mask hiddenSize, x = 0) →
      embedOut hidden mask hiddenSize =
        List.replicate (pooledVec hidden mask hiddenSize).length 0 := by
    intro hz
    have hS : sumSq (pooledVec hidden mask hiddenSize) = 0 := sumSq_eq_zero _ hz
    have hnorm : ¬ (l2norm (pooledVec hidden mask hiddenSize) > 0) := by
      simp only [l2norm, hS, Real.sqrt_zero]
      exact lt_irrefl 0
    simp only [embedOut, l2normalize]
    rw [if_neg hnorm]
  refine ⟨fun hm => hm ▸ pooledVec_ones hidden hiddenSize, fun hex => ?_, hc, fun hmz => ?_⟩
  · obtain ⟨x, hx, hx0⟩ := hex
    have hS : 0 < sumSq (pooledVec hidden mask hiddenSize) :=
      sumSq_pos_of_mem _ x hx hx0
    have hnorm : l2norm (pooledVec hidden mask hiddenSize) > 0 := by
      simp only [l2norm]
      exact Real.sqrt_pos.mpr hS
    simp only [embedOut, l2normalize]
    rw [if_pos hnorm]
    simp only [l2norm]
    rw [sumSq_map_div, Real.mul_self_sqrt (sumSq_nonneg _), div_self hS.ne',
      Real.sqrt_one]
  · have hp : poolLoop hidden mask (List.replicate hiddenSize 0) =
        (List.replicate hiddenSize 0, 0) :=
      poolLoop_zero_mask mask hidden (List.replicate hiddenSize 0) hmz
    have hpv : pooledVec hidden mask hiddenSize = List.replicate hiddenSize 0 := by
      simp only [pooledVec, hp]
      simp
    have hz' : ∀ x ∈ pooledVec hidden mask hiddenSize, x = 0 := by
      rw [hpv]
      intro x hx
      exact List.eq_of_mem_replicate hx
    rw [hc hz', hpv, List.length_replicate]

/-- Witness for C8 at the one-token, one-dimension hidden state `[[3]]`
with the all-ones mask `[1]`: the pooled vector is the mean, and the
normalized output has unit norm. -/
theorem embed_pooling_normalization_props_witness :
    pooledVec [[3]] [1] 1 = meanVec [[3]] 1 ∧ l2norm (embedOut [[3]] [1] 1) = 1 := by
  have h3 : (3 : ℝ) ∈ pooledVec [[3]] [1] 1 := by
    have : pooledVec [[3]] [1] 1 = [3] := by
      simp only [pooledVec, poolLoop, List.zip_cons_cons, List.zip_nil_right,
        List.foldl_cons, List.foldl_nil]
      norm_num
    rw [this]
    exact List.mem_singleton.mpr rfl
  exact ⟨(embed_pooling_normalization_props [[3]] [1] 1).1 rfl,
    (embed_pooling_normalization_props [[3]] [1] 1).2.1 ⟨3, h3, by norm_num⟩⟩

/-- The sub-token append loop never shortens the id list. -/
theorem appendSubTokens_length (maxLength : ℕ) :
    ∀ (subs tokenIds : List ℕ),
      tokenIds.length ≤ (appendSubTokens maxLength tokenIds subs).length := by
  intro subs
  induction subs with
  | nil => intro t; exact le_refl _
  | cons s subs ih =>
    intro t
    unfold appendSubTokens
    split
    · exact le_refl _
    · calc t.length ≤ (t ++ [s]).length := by simp
        _ ≤ _ := ih (t ++ [s])

/-- The word loop never shortens the id list. -/
theorem encodeLoop_length (vocab : String → Option ℕ) (unkId maxLength : ℕ) :
    ∀ (words : List (List Char)) (tokenIds : List ℕ),
      tokenIds.length ≤ (encodeLoop vocab unkId maxLength tokenIds words).length := by
  intro words
  induction words with
  | nil => intro t; exact le_refl _
  | cons w words ih =>
    intro t
    unfold encodeLoop
    split
    · exact le_refl _
    · calc t.length
          ≤ (appendSubTokens maxLength t (wordPieceTokenize vocab unkId w)).length :=
            appendSubTokens_length maxLength _ t
        _ ≤ _ := ih _

/-- C10: for every input string (and vocabulary), `BertTokenizer.encode`
with the configured maximum length (256 in the `Embedder`; any value at
least 2) emits an attention mask with at least two 1-positions — the
inserted `[CLS]` and `[SEP]` boundary tokens always survive — hence the
mask sum is positive and the pooling loop of `Embedder.embed` always
accumulates a positive mask count, making the zero-division guard's
zero-vector branch unreachable on encoder output. -/
theorem encode_attention_mask_positive (tok : BertTokenizer) (text : String)
    (hmax : 2 ≤ tok.maxLength) :
    2 ≤ ((encode tok text).attentionMask.count 1) ∧
      0 < ((encode tok text).attentionMask).sum ∧
      ∀ (hidden : List (List ℝ)) (p₀ : List ℝ),
        ((encode tok text).attentionMask).length ≤ hidden.length →
          0 < (poolLoop hidden ((encode tok text).attentionMask) p₀).2 := by
  have hlen : 2 ≤ ((encodeLoop tok.vocab tok.unkTokenId tok.maxLength [tok.clsTokenId]
      (splitWords text)) ++ [tok.sepTokenId]).length := by
    rw [List.length_append]
    have h1 := encodeLoop_length tok.vocab tok.unkTokenId tok.maxLength
      (splitWords text) [tok.clsTokenId]
    simp only [List.length_cons, List.length_nil, List.length_singleton] at h1 ⊢
    omega
  have hmask : (encode tok text).attentionMask = (List.range tok.maxLength).map
      (fun i =>
        if i < ((encodeLoop tok.vocab tok.unkTokenId tok.maxLength [tok.clsTokenId]
            (splitWords text)) ++ [tok.sepTokenId]).length
        then 1 else 0) := rfl
  have htake : ((encode tok text).attentionMask).take 2 = [1, 1] := by
    rw [hmask, ← List.map_take, List.take_range, min_eq_left hmax]
    have h0 : (0 : ℕ) < ((encodeLoop tok.vocab tok.unkTokenId tok.maxLength [tok.clsTokenId]
        (splitWords text)) ++ [tok.sepTokenId]).length := by omega
    have h1 : (1 : ℕ) < ((encodeLoop tok.vocab tok.unkTokenId tok.maxLength [tok.clsTokenId]
        (splitWords text)) ++ [tok.sepTokenId]).length := by omega
    have hne : encodeLoop tok.vocab tok.unkTokenId tok.maxLength [tok.clsTokenId]
        (splitWords text) ≠ [] := by
      intro hnil
      rw [hnil] at hlen
      simp at hlen
    simp [List.range_succ, h0, h1, hne]
  have hcount : 2 ≤ ((encode tok text).attentionMask).count 1 := by
    have hsub := (List.take_sublist 2 ((encode tok text).attentionMask)).count_le 1
    rw [htake] at hsub
    have h2 : ([1, 1] : List ℕ).count 1 = 2 := by decide
    omega
  have hone : (1 : ℕ) ∈ (encode tok text).attentionMask := by
    have hmem : (1 : ℕ) ∈ ((encode tok text).attentionMask).take 2 := by
      rw [htake]
      exact List.mem_cons_self _ _
    exact (List.take_sublist 2 _).subset hmem
  have hsum : 0 < ((encode tok text).attentionMask).sum := by
    have h1 := List.single_le_sum (fun y _ => Nat.zero_le y) 1 hone
    omega
  refine ⟨hcount, hsum, fun hidden p₀ hhl => ?_⟩
  have hms : (poolLoop hidden ((encode tok text).attentionMask) p₀).2 =
      ((((encode tok text).attentionMask).zip hidden).map Prod.fst).sum := by
    unfold poolLoop
    rw [poolLoop_maskSum]
    simp
  rw [hms, List.map_fst_zip _ _ hhl]
  exact hsum

/-- Witness for C10 at the empty input with an empty vocabulary and the
default maximum length 256. -/
theorem encode_attention_mask_positive_witness :
    2 ≤ ((encode
        { vocab := fun _ => none, unkTokenId := 100, clsTokenId := 101
          sepTokenId := 102, padTokenId := 0, maxLength := 256 } "").attentionMask.count 1) :=
  (encode_attention_mask_positive
    { vocab := fun _ => none, unkTokenId := 100, clsTokenId := 101
      sepTokenId := 102, padTokenId := 0, maxLength := 256 } "" (by decide)).1
